import Mathlib

/-!
# Concurrent traffic simulation: `MessageQueue` and `TrafficLight`

A shallow embedding of `src/TrafficLight.cpp`.

* `MessageQueue<T>` keeps its items in a `std::deque<T>`; the deque is a `List T`
  whose head is `front()` and whose last element is `back()`.
* A call that blocks (the predicate of `_cond.wait` is false) is a call that
  yields no result: `receive` returns `none` on the empty deque.
* `TrafficLight` is the pair of `_currentPhase` and `_queue`.
* Locks are modelled twice: as the list of lock events every operation performs
  in program order, and as an interleaving semantics of the cycle loop with a
  caller of `getCurrentPhase`, one atomic statement per step.
-/

namespace TrafficSim

/-! ## Data model -/

/-- The enumeration `TrafficLightPhase`. -/
inductive TrafficLightPhase where
  | red
  | green
deriving DecidableEq, Repr

open TrafficLightPhase

/-- The deque `_queue` of a `MessageQueue<T>`: head is the front, last is the back. -/
abbrev MessageQueue (T : Type) := List T

namespace MessageQueue

variable {T : Type}

/-- `MessageQueue<T>::send`: under the lock, `_queue.emplace_back(msg)`. -/
def send (q : MessageQueue T) (msg : T) : MessageQueue T :=
  q ++ [msg]

/-- `MessageQueue<T>::receive`: waits until `!_queue.empty()`, then takes
`_queue.front()` and does `pop_front()`. On the empty deque the wait predicate is
false and the call does not return: `none`. -/
def receive (q : MessageQueue T) : Option (T × MessageQueue T) :=
  match q with
  | [] => none
  | msg :: rest => some (msg, rest)

/-- The calls `send(s1); ...; send(sn)` in this order. -/
def sendAll (q : MessageQueue T) : List T → MessageQueue T
  | [] => q
  | s :: ss => sendAll (send q s) ss

/-- The first `k` calls of `receive`, one after the other: the values returned,
in call order, and the deque left; `none` when one of the calls blocks. -/
def receiveN : Nat → MessageQueue T → Option (List T × MessageQueue T)
  | 0, q => some ([], q)
  | k + 1, q =>
    match receive q with
    | none => none
    | some (msg, q') =>
      match receiveN k q' with
      | none => none
      | some (msgs, q'') => some (msg :: msgs, q'')

/-- One step on a queue shared by several threads: a `send` by some thread, or a
`receive` by some thread. -/
inductive Op (T : Type) where
  | send (msg : T)
  | receive
deriving DecidableEq, Repr

/-- A run of a shared queue: the values the receives have returned so far, in
the order the receives completed, and the deque. -/
structure Run (T : Type) where
  returned : List T
  queue : MessageQueue T
deriving DecidableEq, Repr

/-- One step of a run. A `receive` step is taken only when the deque is not
empty; on the empty deque the step is not enabled (`none`). -/
def Run.step (r : Run T) : Op T → Option (Run T)
  | Op.send msg => some { r with queue := MessageQueue.send r.queue msg }
  | Op.receive =>
    match MessageQueue.receive r.queue with
    | none => none
    | some (msg, q') => some { returned := r.returned ++ [msg], queue := q' }

/-- A whole interleaving, step by step. -/
def Run.exec (r : Run T) : List (Op T) → Option (Run T)
  | [] => some r
  | op :: ops =>
    match r.step op with
    | none => none
    | some r' => r'.exec ops

/-- The run of a newly created queue. -/
def Run.empty : Run T := { returned := [], queue := [] }

/-- The values sent by an interleaving, in send order. -/
def sentValues : List (Op T) → List T
  | [] => []
  | Op.send msg :: ops => msg :: sentValues ops
  | Op.receive :: ops => sentValues ops

/-- The number of `send` steps of an interleaving. -/
def numSends : List (Op T) → Nat
  | [] => 0
  | Op.send _ :: ops => numSends ops + 1
  | Op.receive :: ops => numSends ops

/-- The number of `receive` steps of an interleaving. -/
def numReceives : List (Op T) → Nat
  | [] => 0
  | Op.send _ :: ops => numReceives ops
  | Op.receive :: ops => numReceives ops + 1

/-- What a thread blocked in `receive` sees: a `send` by another thread, or a
wake-up of the waiting thread (notified or spurious) after which the predicate
`!_queue.empty()` is tested again. -/
inductive Event (T : Type) where
  | send (msg : T)
  | wake
deriving DecidableEq, Repr

/-- A queue with one pending call of `receive`: `result` is `none` while the
call has not returned. -/
structure Pending (T : Type) where
  queue : MessageQueue T
  result : Option T
deriving DecidableEq, Repr

/-- One event on a queue with a pending `receive`. On a wake-up the caller
returns the front item if there is one and goes back to waiting otherwise. -/
def Pending.step (p : Pending T) : Event T → Pending T
  | Event.send msg => { p with queue := MessageQueue.send p.queue msg }
  | Event.wake =>
    match p.result with
    | some _ => p
    | none =>
      match MessageQueue.receive p.queue with
      | none => p
      | some (msg, q') => { queue := q', result := some msg }

/-- A sequence of events on a queue with a pending `receive`. -/
def Pending.exec (p : Pending T) : List (Event T) → Pending T
  | [] => p
  | e :: es => (p.step e).exec es

/-- A `receive` issued on the empty queue. -/
def Pending.issued : Pending T := { queue := [], result := none }

/-- The values sent by a sequence of events, in send order. -/
def eventSends : List (Event T) → List T
  | [] => []
  | Event.send msg :: es => msg :: eventSends es
  | Event.wake :: es => eventSends es

end MessageQueue

/-! ## The traffic light -/

/-- The members of `TrafficLight` the operations read and write. -/
structure TrafficLight where
  _currentPhase : TrafficLightPhase
  _queue : MessageQueue TrafficLightPhase
deriving DecidableEq, Repr

namespace TrafficLight

/-- The constructor `TrafficLight::TrafficLight()`; the queue member is default
constructed. -/
def new : TrafficLight :=
  { _currentPhase := red, _queue := [] }

/-- `TrafficLight::getCurrentPhase`. -/
def getCurrentPhase (l : TrafficLight) : TrafficLightPhase :=
  l._currentPhase

/-- The assignment
`_currentPhase == green ? red : green` of `cycleThroughPhases`. -/
def toggle (p : TrafficLightPhase) : TrafficLightPhase :=
  if p = green then red else green

/-- The body of `if (time_elapsed >= cycle_duration)` in `cycleThroughPhases`,
as far as the light is concerned: the phase is toggled, then the new value of
`_currentPhase` is handed to `_queue.send`. `send` binds it to the named
reference `msg` and `emplace_back(msg)` copies it, so `_currentPhase` keeps its
value. -/
def transition (l : TrafficLight) : TrafficLight :=
  let phase := toggle l._currentPhase
  { _currentPhase := phase, _queue := MessageQueue.send l._queue phase }

/-- `TrafficLight::waitForGreen` on the deque `q` when no further item arrives:
the number of calls of `receive` that returned and the deque left. `none` when
the deque runs empty before a `green` is received, so that the next `receive`
blocks. -/
def waitForGreen : MessageQueue TrafficLightPhase →
    Option (Nat × MessageQueue TrafficLightPhase)
  | [] => none
  | phase :: q' =>
    if phase = green then some (1, q')
    else
      match waitForGreen q' with
      | none => none
      | some (n, q'') => some (n + 1, q'')

/-- The operations on one light that change or read its phase and its backlog. -/
inductive Op where
  | transition
  | receive
  | getCurrentPhase
deriving DecidableEq, Repr

/-- One operation on a light; `receive` is taken only on a non-empty queue. -/
def step (l : TrafficLight) : Op → Option TrafficLight
  | Op.transition => some l.transition
  | Op.receive =>
    match MessageQueue.receive l._queue with
    | none => none
    | some (_, q') => some { l with _queue := q' }
  | Op.getCurrentPhase => some l

/-- A sequence of operations on a light. -/
def exec (l : TrafficLight) : List Op → Option TrafficLight
  | [] => some l
  | op :: ops =>
    match l.step op with
    | none => none
    | some l' => l'.exec ops

/-- Any two neighbours in the deque are different phases. -/
def adjacentDistinct : List TrafficLightPhase → Prop
  | a :: b :: rest => a ≠ b ∧ adjacentDistinct (b :: rest)
  | _ => True

/-- The invariant of the backlog of one light: neighbours differ and the last
item, if there is one, is the current phase. -/
def BacklogInv (l : TrafficLight) : Prop :=
  adjacentDistinct l._queue ∧ (l._queue ≠ [] → l._queue.getLast? = some l._currentPhase)

end TrafficLight

/-! ## The timing of the cycle loop -/

/-- The local variables of `cycleThroughPhases` together with the light.
`start` is a reading of `system_clock::now()` in ticks of that clock, `draws` is
the number of values taken from `distribution(eng)` so far. Tick counts and
their differences are integers; they stay inside the 64-bit range of the clock,
so no wrap-around is modelled. -/
structure CycleLoop where
  light : TrafficLight
  start : Int
  cycle_duration : Int
  draws : Nat

namespace CycleLoop

/-- `duration_cast<milliseconds>(d).count()` for a duration of `d` clock ticks,
`ticksPerMs` ticks to the millisecond: integer division that truncates. -/
def duration_cast_ms (ticksPerMs : Int) (d : Int) : Int :=
  Int.tdiv d ticksPerMs

/-- The value of `time_elapsed` when `system_clock::now()` reads `endT`. -/
def time_elapsed (ticksPerMs : Int) (s : CycleLoop) (endT : Int) : Int :=
  duration_cast_ms ticksPerMs (endT - s.start)

/-- The statements of `cycleThroughPhases` before the loop. The standard library
is not part of the program: `sample a b k` stands for the value of the `k`-th
call `distribution(eng)` of a `std::uniform_int_distribution<>(a, b)`, and `now`
for the reading of the clock. -/
def init (sample : Int → Int → Nat → Int) (l : TrafficLight) (now : Int) : CycleLoop :=
  { light := l, start := now, cycle_duration := sample 4000 6000 0, draws := 1 }

/-- One iteration of the `while (true)` loop of `cycleThroughPhases`, after the
sleep: `endT` is the clock reading of `end`, `restart` the reading that `start`
is set to when the branch is taken. -/
def poll (sample : Int → Int → Nat → Int) (ticksPerMs : Int) (s : CycleLoop)
    (endT restart : Int) : CycleLoop :=
  if time_elapsed ticksPerMs s endT ≥ s.cycle_duration then
    { light := s.light.transition
      start := restart
      cycle_duration := sample 4000 6000 s.draws
      draws := s.draws + 1 }
  else s

/-- Several iterations, each with its two clock readings. -/
def run (sample : Int → Int → Nat → Int) (ticksPerMs : Int) (s : CycleLoop) :
    List (Int × Int) → CycleLoop
  | [] => s
  | (endT, restart) :: rest => run sample ticksPerMs (poll sample ticksPerMs s endT restart) rest

/-- The contract of `std::uniform_int_distribution<>(a, b)`: every value lies in
the closed range from `a` to `b`. -/
def InRange (sample : Int → Int → Nat → Int) : Prop :=
  ∀ a b k, a ≤ b → a ≤ sample a b k ∧ sample a b k ≤ b

/-- A sampler that meets the contract, used to instantiate the statements. -/
def sampleMod (a b : Int) (k : Nat) : Int :=
  a + (37 * (k : Int) + 11) % (b - a + 1)

end CycleLoop

/-! ## Lock events in program order -/

/-- The two mutexes: `_mutex` of `TrafficLight` guards `_currentPhase`, `_mtx` of
`MessageQueue` guards `_queue`. -/
inductive Lock where
  | _mutex
  | _mtx
deriving DecidableEq, Repr

/-- What an operation does to a lock. -/
inductive LockEvent where
  | acquire (l : Lock)
  | release (l : Lock)
deriving DecidableEq, Repr

/-- Which locks the running operation holds. -/
structure Held where
  mutex : Bool
  mtx : Bool
deriving DecidableEq, Repr

namespace Held

/-- No lock held: the state in which every operation is entered. -/
def none : Held := { mutex := false, mtx := false }

/-- The effect of one event. -/
def apply (h : Held) : LockEvent → Held
  | LockEvent.acquire Lock._mutex => { h with mutex := true }
  | LockEvent.acquire Lock._mtx => { h with mtx := true }
  | LockEvent.release Lock._mutex => { h with mutex := false }
  | LockEvent.release Lock._mtx => { h with mtx := false }

/-- The effect of a sequence of events. -/
def applyAll (h : Held) : List LockEvent → Held
  | [] => h
  | e :: es => applyAll (h.apply e) es

/-- Both locks are held at some point of the sequence. -/
def everBoth (h : Held) : List LockEvent → Bool
  | [] => h.mutex && h.mtx
  | e :: es => (h.mutex && h.mtx) || everBoth (h.apply e) es

/-- Some event of the sequence acquires `_mutex` while `_mtx` is held. -/
def mutexUnderMtx (h : Held) : List LockEvent → Bool
  | [] => false
  | e :: es => (h.mtx && decide (e = LockEvent.acquire Lock._mutex)) || mutexUnderMtx (h.apply e) es

end Held

namespace LockTrace

open LockEvent Lock

/-- `MessageQueue<T>::send`: the `lock_guard` on `_mtx` lives from the first
statement to the return. -/
def send : List LockEvent :=
  [acquire _mtx, release _mtx]

/-- `MessageQueue<T>::receive` when the wait predicate is found false `waits`
times: the `unique_lock` takes `_mtx`, every wait on `_cond` releases it and
takes it again, the return releases it. -/
def receive : Nat → List LockEvent
  | 0 => [acquire _mtx, release _mtx]
  | waits + 1 => acquire _mtx :: release _mtx :: receive waits

/-- `TrafficLight::waitForGreen`: one call of `receive` after the other, `waits`
lists how often each of them waits. -/
def waitForGreen : List Nat → List LockEvent
  | [] => []
  | w :: ws => receive w ++ waitForGreen ws

/-- `TrafficLight::getCurrentPhase`: the `lock_guard` on `_mutex`. -/
def getCurrentPhase : List LockEvent :=
  [acquire _mutex, release _mutex]

/-- The branch of `cycleThroughPhases` that toggles the phase: the `unique_lock`
takes `_mutex`, the phase is assigned, `_queue.send` runs, then `lck.unlock()`. -/
def transition : List LockEvent :=
  acquire _mutex :: (send ++ [release _mutex])

end LockTrace

/-! ## The cycle loop interleaved with a caller of `getCurrentPhase` -/

/-- The two threads. -/
inductive Thread where
  | cycle
  | reader
deriving DecidableEq, Repr

/-- Where the cycle loop stands inside the branch that toggles the phase. -/
inductive CyclePc where
  /-- The threshold is reached, the `unique_lock` on `_mutex` comes next. -/
  | poll
  /-- It holds `_mutex`, the assignment of `_currentPhase` comes next. -/
  | locked
  /-- The phase is toggled, `send` is entered and its `lock_guard` comes next. -/
  | flipped
  /-- It holds `_mtx`, `emplace_back` comes next. -/
  | inSend
  /-- The item is in the deque, `notify_one` and the return of `send` come next. -/
  | appended
  /-- Here `send` has returned, `lck.unlock()` comes next. -/
  | sent
deriving DecidableEq, Repr

/-- Where the caller of `getCurrentPhase` stands. -/
inductive ReaderPc where
  /-- No call is active, or the call waits for `_mutex`. -/
  | idle
  /-- It holds `_mutex`, the read of `_currentPhase` comes next. -/
  | locked
  /-- The value is read, the `lock_guard` is released at the return. -/
  | done
deriving DecidableEq, Repr

/-- What is known at the moment `getCurrentPhase` reads `_currentPhase`. -/
structure Observation where
  phase : TrafficLightPhase
  flips : Nat
  published : Nat
deriving DecidableEq, Repr

/-- The shared state, the two locks, the two program counters, the number of
assignments to `_currentPhase` and of items appended so far, and the reads. -/
structure World where
  light : TrafficLight
  mutexOwner : Option Thread
  mtxOwner : Option Thread
  cyclePc : CyclePc
  readerPc : ReaderPc
  flips : Nat
  published : Nat
  reads : List Observation
deriving DecidableEq, Repr

namespace World

/-- A newly constructed light, no lock taken, no call active. -/
def init : World :=
  { light := TrafficLight.new, mutexOwner := none, mtxOwner := none,
    cyclePc := CyclePc.poll, readerPc := ReaderPc.idle,
    flips := 0, published := 0, reads := [] }

/-- The next atomic statement of the cycle loop. A thread that needs a lock
another thread holds does not move. -/
def stepCycle (w : World) : World :=
  match w.cyclePc with
  | CyclePc.poll =>
    match w.mutexOwner with
    | none => { w with mutexOwner := some Thread.cycle, cyclePc := CyclePc.locked }
    | some _ => w
  | CyclePc.locked =>
    { w with
      light := { w.light with _currentPhase := TrafficLight.toggle w.light._currentPhase }
      flips := w.flips + 1
      cyclePc := CyclePc.flipped }
  | CyclePc.flipped =>
    match w.mtxOwner with
    | none => { w with mtxOwner := some Thread.cycle, cyclePc := CyclePc.inSend }
    | some _ => w
  | CyclePc.inSend =>
    { w with
      light := { w.light with _queue := MessageQueue.send w.light._queue w.light._currentPhase }
      published := w.published + 1
      cyclePc := CyclePc.appended }
  | CyclePc.appended => { w with mtxOwner := none, cyclePc := CyclePc.sent }
  | CyclePc.sent => { w with mutexOwner := none, cyclePc := CyclePc.poll }

/-- The next atomic statement of the caller of `getCurrentPhase`. -/
def stepReader (w : World) : World :=
  match w.readerPc with
  | ReaderPc.idle =>
    match w.mutexOwner with
    | none => { w with mutexOwner := some Thread.reader, readerPc := ReaderPc.locked }
    | some _ => w
  | ReaderPc.locked =>
    { w with
      reads := w.reads ++
        [{ phase := w.light.getCurrentPhase, flips := w.flips, published := w.published }]
      readerPc := ReaderPc.done }
  | ReaderPc.done => { w with mutexOwner := none, readerPc := ReaderPc.idle }

/-- One step of the thread the scheduler picks. -/
def step (w : World) : Thread → World
  | Thread.cycle => w.stepCycle
  | Thread.reader => w.stepReader

/-- An interleaving: the threads in the order they are scheduled. -/
def run (w : World) : List Thread → World
  | [] => w
  | t :: ts => (w.step t).run ts

/-- The invariant of the interleaving semantics. -/
def Inv (w : World) : Prop :=
  (w.mutexOwner = some Thread.cycle ↔ w.cyclePc ≠ CyclePc.poll) ∧
  (w.mutexOwner = some Thread.reader ↔ w.readerPc ≠ ReaderPc.idle) ∧
  (w.flips = w.published +
    (if w.cyclePc = CyclePc.flipped ∨ w.cyclePc = CyclePc.inSend then 1 else 0)) ∧
  (w.light._currentPhase = if w.flips % 2 = 1 then green else red) ∧
  (∀ o ∈ w.reads, o.flips = o.published ∧
    o.phase = if o.flips % 2 = 1 then green else red)

end World

/-! ## The message queue: order, loss, blocking -/

namespace MessageQueue

variable {T : Type}

theorem sendAll_eq_append (q : MessageQueue T) (ss : List T) :
    sendAll q ss = q ++ ss := by
  induction ss generalizing q with
  | nil => simp [sendAll]
  | cons s ss ih => simp [sendAll, send, ih]

theorem receiveN_append (q rest : MessageQueue T) :
    receiveN q.length (q ++ rest) = some (q, rest) := by
  induction q with
  | nil => simp [receiveN]
  | cons x xs ih => simp [receiveN, receive, ih]

theorem receiveN_length (q : MessageQueue T) :
    receiveN q.length q = some (q, []) := by
  have h := receiveN_append q []
  simpa using h

/-- C1. FIFO: after `send(s1), ..., send(sn)` on a queue holding `q`, the next
`|q| + n` calls of `receive` return the items of `q` followed by `s1, ..., sn`
in that order and leave the queue empty; on a queue that was empty the `n`
calls return `s1, ..., sn`. -/
theorem fifo_send_then_receive (q : MessageQueue T) (ss : List T) :
    receiveN (q.length + ss.length) (sendAll q ss) = some (q ++ ss, []) ∧
    receiveN ss.length (sendAll ([] : MessageQueue T) ss) = some (ss, []) := by
  constructor
  · have h := receiveN_length (q ++ ss)
    rw [sendAll_eq_append]
    simpa using h
  · have h := receiveN_length ss
    rw [sendAll_eq_append]
    simpa using h

theorem Run.step_inv (r r' : Run T) (op : Op T) (h : r.step op = some r') :
    r'.returned ++ r'.queue = r.returned ++ r.queue ++ sentValues [op] ∧
    r'.returned.length = r.returned.length + numReceives [op] := by
  cases op with
  | send msg =>
    simp only [Run.step, Option.some.injEq] at h
    subst h
    simp [send, sentValues, numReceives]
  | receive =>
    cases hq : r.queue with
    | nil => simp [Run.step, MessageQueue.receive, hq] at h
    | cons x xs =>
      simp only [Run.step, MessageQueue.receive, hq, Option.some.injEq] at h
      subst h
      simp [sentValues, numReceives]

theorem sentValues_cons (op : Op T) (ops : List (Op T)) :
    sentValues (op :: ops) = sentValues [op] ++ sentValues ops := by
  cases op <;> simp [sentValues]

theorem numReceives_cons (op : Op T) (ops : List (Op T)) :
    numReceives (op :: ops) = numReceives [op] + numReceives ops := by
  cases op <;> simp [numReceives, Nat.add_comm]

theorem sentValues_length (ops : List (Op T)) :
    (sentValues ops).length = numSends ops := by
  induction ops with
  | nil => rfl
  | cons op ops ih => cases op <;> simp [sentValues, numSends, ih]

theorem Run.exec_inv (r r' : Run T) (ops : List (Op T)) (h : r.exec ops = some r') :
    r'.returned ++ r'.queue = r.returned ++ r.queue ++ sentValues ops ∧
    r'.returned.length = r.returned.length + numReceives ops := by
  induction ops generalizing r with
  | nil =>
    simp only [Run.exec, Option.some.injEq] at h
    subst h
    simp [sentValues, numReceives]
  | cons op ops ih =>
    cases hs : r.step op with
    | none => simp [Run.exec, hs] at h
    | some r1 =>
      simp only [Run.exec, hs] at h
      obtain ⟨h1, h2⟩ := Run.step_inv r r1 op hs
      obtain ⟨h3, h4⟩ := ih r1 h
      rw [sentValues_cons, numReceives_cons]
      constructor
      · rw [h3, h1]; simp
      · rw [h4, h2]; omega

/-- C2. No loss, no duplication: along every interleaving of `send` and
`receive` steps on a queue that starts empty, each `receive` taken on a
non-empty queue, the values returned so far followed by the queue contents are
the values sent so far in send order; once as many receives as sends have
happened the queue is empty and the returned values are exactly the sent ones. -/
theorem no_loss_no_duplication (ops : List (Op T)) (r : Run T)
    (h : (Run.empty : Run T).exec ops = some r) :
    r.returned ++ r.queue = sentValues ops ∧
    r.returned.length = numReceives ops ∧
    (numSends ops = numReceives ops → r.queue = [] ∧ r.returned = sentValues ops) := by
  obtain ⟨h1, h2⟩ := Run.exec_inv Run.empty r ops h
  simp only [Run.empty, List.nil_append, List.length_nil, Nat.zero_add] at h1 h2
  refine ⟨h1, h2, ?_⟩
  intro hn
  have hl : (r.returned ++ r.queue).length = numSends ops := by
    rw [h1, sentValues_length]
  have hq : r.queue = [] := by
    apply List.eq_nil_of_length_eq_zero
    rw [List.length_append] at hl
    omega
  refine ⟨hq, ?_⟩
  rw [← h1, hq, List.append_nil]

theorem no_loss_no_duplication_witness :
    (Run.empty : Run Nat).exec [Op.send 7, Op.send 8, Op.receive, Op.send 9, Op.receive, Op.receive]
      = some { returned := [7, 8, 9], queue := [] } ∧
    ([7, 8, 9] ++ ([] : List Nat) = sentValues [Op.send 7, Op.send 8, Op.receive, Op.send 9,
      Op.receive, Op.receive] ∧
     [7, 8, 9].length = numReceives [Op.send 7, Op.send 8, Op.receive, Op.send 9,
      Op.receive, Op.receive] ∧
     (numSends [Op.send 7, Op.send 8, Op.receive, Op.send 9, Op.receive, Op.receive]
        = numReceives [Op.send 7, Op.send 8, Op.receive, Op.send 9, Op.receive, Op.receive] →
      ([] : List Nat) = [] ∧
      [7, 8, 9] = sentValues [Op.send 7, Op.send 8, Op.receive, Op.send 9,
        Op.receive, Op.receive])) :=
  ⟨by decide,
   no_loss_no_duplication
     [Op.send 7, Op.send 8, Op.receive, Op.send 9, Op.receive, Op.receive]
     { returned := [7, 8, 9], queue := [] } (by decide)⟩

/-- The items a pending call has taken or can still take. -/
theorem Pending.step_content (p : Pending T) (e : Event T) :
    (p.step e).result.toList ++ (p.step e).queue
      = p.result.toList ++ p.queue ++ eventSends [e] := by
  cases e with
  | send msg => simp [Pending.step, send, eventSends]
  | wake =>
    cases hr : p.result with
    | some v => simp [Pending.step, hr, eventSends]
    | none =>
      cases hq : p.queue with
      | nil => simp [Pending.step, hr, hq, receive, eventSends]
      | cons x xs => simp [Pending.step, hr, hq, receive, eventSends]

theorem eventSends_cons (e : Event T) (es : List (Event T)) :
    eventSends (e :: es) = eventSends [e] ++ eventSends es := by
  cases e <;> simp [eventSends]

theorem Pending.exec_content (p : Pending T) (es : List (Event T)) :
    (p.exec es).result.toList ++ (p.exec es).queue
      = p.result.toList ++ p.queue ++ eventSends es := by
  induction es generalizing p with
  | nil => simp [Pending.exec, eventSends]
  | cons e es ih =>
    rw [Pending.exec, ih, Pending.step_content, eventSends_cons e es]
    simp

theorem Pending.exec_no_send (es : List (Event T)) (h : eventSends es = []) :
    (Pending.issued : Pending T).exec es = Pending.issued := by
  induction es with
  | nil => rfl
  | cons e es ih =>
    cases e with
    | send msg => simp [eventSends] at h
    | wake =>
      have h' : eventSends es = [] := by simpa [eventSends] using h
      have hs : (Pending.issued : Pending T).step Event.wake = Pending.issued := by
        simp [Pending.step, Pending.issued, receive]
      rw [Pending.exec, hs]
      exact ih h'

/-- C6. Blocking receive: `receive` returns no value on the empty queue and a
returned value is the front item of a non-empty queue; a `receive` issued on an
empty queue has no result and leaves the queue as it is as long as no `send`
has appended an item, whatever wake-ups occur; a value it returns is the first
of the values sent so far, the later ones being still in the queue. -/
theorem receive_blocks_until_send (es : List (Event T)) :
    receive ([] : MessageQueue T) = none ∧
    (∀ (q q' : MessageQueue T) (v : T), receive q = some (v, q') → q = v :: q') ∧
    (eventSends es = [] → (Pending.issued : Pending T).exec es = Pending.issued) ∧
    (∀ v, ((Pending.issued : Pending T).exec es).result = some v →
      v ∈ eventSends es ∧
      eventSends es = v :: ((Pending.issued : Pending T).exec es).queue) := by
  refine ⟨rfl, ?_, Pending.exec_no_send es, ?_⟩
  · intro q q' v h
    cases q with
    | nil => simp [receive] at h
    | cons x xs =>
      simp only [receive, Option.some.injEq, Prod.mk.injEq] at h
      rw [h.1, h.2]
  · intro v hv
    have h := Pending.exec_content (Pending.issued : Pending T) es
    rw [hv] at h
    simp only [Pending.issued, Option.toList, List.nil_append, List.singleton_append] at h
    refine ⟨?_, h.symm⟩
    rw [← h]
    exact List.mem_cons_self _ _

theorem receive_blocks_until_send_witness :
    ((Pending.issued : Pending Nat).exec [Event.wake, Event.wake]).result = none ∧
    ((Pending.issued : Pending Nat).exec [Event.wake, Event.send 5, Event.send 6, Event.wake]).result
      = some 5 ∧
    (5 ∈ eventSends [Event.wake, Event.send 5, Event.send 6, Event.wake] ∧
      eventSends [Event.wake, Event.send 5, Event.send 6, Event.wake]
        = 5 :: ((Pending.issued : Pending Nat).exec
            [Event.wake, Event.send 5, Event.send 6, Event.wake]).queue) :=
  ⟨by decide, by decide,
   (receive_blocks_until_send [Event.wake, Event.send 5, Event.send 6, Event.wake]).2.2.2 5
     (by decide)⟩

end MessageQueue

/-! ## The traffic light: phases and backlog -/

namespace TrafficLight

theorem waitForGreen_receive (q : MessageQueue TrafficLightPhase) :
    waitForGreen q =
      match MessageQueue.receive q with
      | none => none
      | some (phase, q') =>
        if phase = green then some (1, q')
        else
          match waitForGreen q' with
          | none => none
          | some (n, q'') => some (n + 1, q'') := by
  cases q with
  | nil => simp [waitForGreen, MessageQueue.receive]
  | cons x xs => simp [waitForGreen, MessageQueue.receive]

/-- C3. `waitForGreen` consumes the reds up to the first green and that green:
on a queue `r ++ [green] ++ rest` with only red values in `r` it returns after
`|r| + 1` calls of `receive` and leaves `rest`; on `[red, red, green]` it takes
all three items, on `[green]` one. -/
theorem waitForGreen_consumes_first_green (r rest : List TrafficLightPhase)
    (h : ∀ p ∈ r, p = red) :
    waitForGreen (r ++ [green] ++ rest) = some (r.length + 1, rest) ∧
    waitForGreen [red, red, green] = some (3, []) ∧
    waitForGreen [green] = some (1, []) := by
  refine ⟨?_, by decide, by decide⟩
  induction r with
  | nil => simp [waitForGreen]
  | cons x xs ih =>
    have hx : x = red := h x (List.mem_cons_self _ _)
    have hxs : ∀ p ∈ xs, p = red := fun p hp => h p (List.mem_cons_of_mem _ hp)
    have ih' := ih hxs
    simp only [List.append_assoc, List.singleton_append] at ih'
    subst hx
    simp [waitForGreen, ih']

theorem waitForGreen_consumes_first_green_witness :
    (∀ p ∈ [red, red], p = red) ∧
    waitForGreen ([red, red] ++ [green] ++ [red, green]) = some (3, [red, green]) :=
  ⟨by decide,
   (waitForGreen_consumes_first_green [red, red] [red, green] (by decide)).1⟩

theorem toggle_ne (p : TrafficLightPhase) : toggle p ≠ p := by
  cases p <;> decide

theorem iterate_transition_phase (k : Nat) (l : TrafficLight) :
    (transition^[k] l)._currentPhase = toggle^[k] l._currentPhase := by
  induction k generalizing l with
  | zero => rfl
  | succ k ih => simp [Function.iterate_succ, ih, transition]

theorem iterate_toggle_red (k : Nat) :
    toggle^[k] red = if k % 2 = 1 then green else red := by
  induction k with
  | zero => rfl
  | succ k ih =>
    rw [Function.iterate_succ_apply', ih]
    rcases Nat.mod_two_eq_zero_or_one k with h | h
    · have h' : (k + 1) % 2 = 1 := by omega
      simp [h, h', toggle]
    · have h' : (k + 1) % 2 = 0 := by omega
      simp [h, h', toggle]

/-- C4. Phase toggling from red: a newly constructed light reports `red`;
a transition of the cycle loop sets the phase to the other value, never to the
value it had; after `k` transitions of one cycle loop `getCurrentPhase` returns
`green` for odd `k` and `red` for even `k`. -/
theorem phase_toggles_from_red (k : Nat) (l : TrafficLight) :
    new.getCurrentPhase = red ∧
    l.transition.getCurrentPhase ≠ l.getCurrentPhase ∧
    l.transition.getCurrentPhase = toggle l.getCurrentPhase ∧
    toggle red = green ∧ toggle green = red ∧
    (transition^[k] new).getCurrentPhase = (if k % 2 = 1 then green else red) := by
  refine ⟨rfl, toggle_ne l._currentPhase, rfl, rfl, rfl, ?_⟩
  simp only [getCurrentPhase]
  rw [iterate_transition_phase]
  exact iterate_toggle_red k

/-- C5. Each transition publishes the new phase: from phase `p` and queue `q` a
transition of the cycle loop gives phase `toggle p` and queue
`q ++ [toggle p]`; one item is appended at the back, it is the new phase and
not the old one, the earlier items stay, and the current phase still holds the
new value after it has been handed to the queue. -/
theorem transition_publishes_new_phase (p : TrafficLightPhase)
    (q : MessageQueue TrafficLightPhase) :
    transition { _currentPhase := p, _queue := q }
      = { _currentPhase := toggle p, _queue := q ++ [toggle p] } ∧
    (transition { _currentPhase := p, _queue := q })._queue.length = q.length + 1 ∧
    (transition { _currentPhase := p, _queue := q })._queue.take q.length = q ∧
    (transition { _currentPhase := p, _queue := q })._queue.getLast?
      = some (transition { _currentPhase := p, _queue := q }).getCurrentPhase ∧
    (transition { _currentPhase := p, _queue := q })._queue.getLast? ≠ some p := by
  refine ⟨rfl, ?_, ?_, ?_, ?_⟩
  · simp [transition, MessageQueue.send]
  · simp [transition, MessageQueue.send]
  · simp [transition, MessageQueue.send, getCurrentPhase]
  · simp only [transition, MessageQueue.send, List.getLast?_append, List.getLast?_singleton,
      ne_eq]
    intro h
    exact toggle_ne p (Option.some.inj h)

theorem adjacentDistinct_tail (a : TrafficLightPhase) (q : List TrafficLightPhase)
    (h : adjacentDistinct (a :: q)) : adjacentDistinct q := by
  cases q with
  | nil => trivial
  | cons b q' => exact h.2

theorem adjacentDistinct_snoc (q : List TrafficLightPhase) (x : TrafficLightPhase)
    (hq : adjacentDistinct q) (hl : ∀ y, q.getLast? = some y → y ≠ x) :
    adjacentDistinct (q ++ [x]) := by
  induction q with
  | nil => trivial
  | cons a q ih =>
    cases q with
    | nil => exact ⟨hl a rfl, trivial⟩
    | cons b q' =>
      refine ⟨hq.1, ?_⟩
      apply ih hq.2
      intro y hy
      apply hl y
      rw [List.getLast?_cons_cons]
      exact hy

theorem BacklogInv.new : BacklogInv TrafficLight.new :=
  ⟨trivial, fun h => absurd rfl h⟩

theorem BacklogInv.step (l l' : TrafficLight) (op : Op) (hl : BacklogInv l)
    (h : l.step op = some l') : BacklogInv l' := by
  cases op with
  | transition =>
    simp only [TrafficLight.step, Option.some.injEq] at h
    subst h
    constructor
    · apply adjacentDistinct_snoc _ _ hl.1
      intro y hy
      have hne : l._queue ≠ [] := by
        intro hnil
        rw [hnil] at hy
        simp at hy
      have hlast := hl.2 hne
      rw [hlast] at hy
      rw [← Option.some.inj hy]
      exact (toggle_ne l._currentPhase).symm
    · intro _
      simp [transition, MessageQueue.send]
  | receive =>
    cases hq : l._queue with
    | nil => simp [TrafficLight.step, MessageQueue.receive, hq] at h
    | cons x xs =>
      simp only [TrafficLight.step, MessageQueue.receive, hq, Option.some.injEq] at h
      subst h
      obtain ⟨h1, h2⟩ := hl
      rw [hq] at h1 h2
      refine ⟨adjacentDistinct_tail x xs h1, ?_⟩
      intro hne
      simp only at hne ⊢
      have h3 := h2 (List.cons_ne_nil _ _)
      cases xs with
      | nil => exact absurd rfl hne
      | cons b q' =>
        rw [List.getLast?_cons_cons] at h3
        exact h3
  | getCurrentPhase =>
    simp only [TrafficLight.step, Option.some.injEq] at h
    subst h
    exact hl

theorem BacklogInv.exec (l l' : TrafficLight) (ops : List Op) (hl : BacklogInv l)
    (h : l.exec ops = some l') : BacklogInv l' := by
  induction ops generalizing l with
  | nil =>
    simp only [TrafficLight.exec, Option.some.injEq] at h
    subst h
    exact hl
  | cons op ops ih =>
    cases hs : l.step op with
    | none => simp [TrafficLight.exec, hs] at h
    | some l1 =>
      simp only [TrafficLight.exec, hs] at h
      exact ih l1 (BacklogInv.step l l1 op hl hs) h

theorem waitForGreen_of_adjacentDistinct (q : List TrafficLightPhase)
    (hq : adjacentDistinct q) (hlen : 2 ≤ q.length) :
    ∃ n q', waitForGreen q = some (n, q') ∧ n ≤ 2 ∧ q' = q.drop n := by
  match q, hq, hlen with
  | green :: b :: rest, _, _ => exact ⟨1, b :: rest, by simp [waitForGreen], by omega, rfl⟩
  | red :: green :: rest, _, _ => exact ⟨2, rest, by simp [waitForGreen], by omega, rfl⟩
  | red :: red :: rest, h, _ => exact absurd rfl h.1

/-- C10. Alternating backlog: in every state reached from a newly constructed
light by transitions of one cycle loop, `receive` calls on a non-empty queue and
`getCurrentPhase` calls, any two neighbours in the queue are different phases
and the last item of a non-empty queue is the current phase; when the queue
holds at least two items `waitForGreen` returns after removing at most two. -/
theorem alternating_backlog (ops : List Op) (l : TrafficLight)
    (h : TrafficLight.new.exec ops = some l) :
    adjacentDistinct l._queue ∧
    (l._queue ≠ [] → l._queue.getLast? = some l.getCurrentPhase) ∧
    (2 ≤ l._queue.length →
      ∃ n q', waitForGreen l._queue = some (n, q') ∧ n ≤ 2 ∧ q' = l._queue.drop n) := by
  have hinv := BacklogInv.exec TrafficLight.new l ops BacklogInv.new h
  exact ⟨hinv.1, hinv.2, waitForGreen_of_adjacentDistinct l._queue hinv.1⟩

theorem alternating_backlog_witness :
    TrafficLight.new.exec [Op.transition, Op.transition, Op.transition, Op.receive,
        Op.getCurrentPhase]
      = some { _currentPhase := green, _queue := [red, green] } ∧
    adjacentDistinct [red, green] ∧
    waitForGreen [red, green] = some (2, []) :=
  ⟨by decide,
   (alternating_backlog
     [Op.transition, Op.transition, Op.transition, Op.receive, Op.getCurrentPhase]
     { _currentPhase := green, _queue := [red, green] } (by decide)).1,
   by decide⟩

end TrafficLight

/-! ## The cycle loop: durations and the threshold -/

namespace CycleLoop

theorem sampleMod_inRange : InRange sampleMod := by
  intro a b k hab
  have hpos : 0 < b - a + 1 := by omega
  have h1 := Int.emod_nonneg (37 * (k : Int) + 11) (ne_of_gt hpos)
  have h2 := Int.emod_lt_of_pos (37 * (k : Int) + 11) hpos
  unfold sampleMod
  constructor <;> omega

theorem transition_ne (l : TrafficLight) : l.transition ≠ l := by
  intro h
  have hlen := congrArg (fun x => x._queue.length) h
  simp [TrafficLight.transition, MessageQueue.send] at hlen

theorem poll_of_reached (sample : Int → Int → Nat → Int) (ticksPerMs : Int) (s : CycleLoop)
    (endT restart : Int) (h : s.cycle_duration ≤ time_elapsed ticksPerMs s endT) :
    poll sample ticksPerMs s endT restart =
      { light := s.light.transition, start := restart,
        cycle_duration := sample 4000 6000 s.draws, draws := s.draws + 1 } := by
  simp [poll, h]

theorem poll_of_not_reached (sample : Int → Int → Nat → Int) (ticksPerMs : Int) (s : CycleLoop)
    (endT restart : Int) (h : time_elapsed ticksPerMs s endT < s.cycle_duration) :
    poll sample ticksPerMs s endT restart = s := by
  simp [poll, not_le.mpr h]

theorem poll_duration (sample : Int → Int → Nat → Int) (hs : InRange sample)
    (ticksPerMs : Int) (s : CycleLoop) (endT restart : Int)
    (h : 4000 ≤ s.cycle_duration ∧ s.cycle_duration ≤ 6000) :
    4000 ≤ (poll sample ticksPerMs s endT restart).cycle_duration ∧
    (poll sample ticksPerMs s endT restart).cycle_duration ≤ 6000 := by
  unfold poll
  split
  · exact hs 4000 6000 s.draws (by decide)
  · exact h

theorem run_duration (sample : Int → Int → Nat → Int) (hs : InRange sample)
    (ticksPerMs : Int) (s : CycleLoop) (polls : List (Int × Int))
    (h : 4000 ≤ s.cycle_duration ∧ s.cycle_duration ≤ 6000) :
    4000 ≤ (run sample ticksPerMs s polls).cycle_duration ∧
    (run sample ticksPerMs s polls).cycle_duration ≤ 6000 := by
  induction polls generalizing s with
  | nil => exact h
  | cons p polls ih =>
    obtain ⟨endT, restart⟩ := p
    exact ih _ (poll_duration sample hs ticksPerMs s endT restart h)

theorem run_of_not_reached (sample : Int → Int → Nat → Int) (ticksPerMs : Int) (s : CycleLoop)
    (waits : List (Int × Int))
    (h : ∀ w ∈ waits, time_elapsed ticksPerMs s w.1 < s.cycle_duration) :
    run sample ticksPerMs s waits = s := by
  induction waits with
  | nil => rfl
  | cons w waits ih =>
    obtain ⟨endT, restart⟩ := w
    have hw := h (endT, restart) (List.mem_cons_self _ _)
    rw [run, poll_of_not_reached sample ticksPerMs s endT restart hw]
    exact ih (fun w hmem => h w (List.mem_cons_of_mem _ hmem))

theorem run_append (sample : Int → Int → Nat → Int) (ticksPerMs : Int) (s : CycleLoop)
    (a b : List (Int × Int)) :
    run sample ticksPerMs s (a ++ b) = run sample ticksPerMs (run sample ticksPerMs s a) b := by
  induction a generalizing s with
  | nil => rfl
  | cons p a ih =>
    obtain ⟨endT, restart⟩ := p
    simp only [List.cons_append, run]
    exact ih _

/-- C7. Cycle duration bound: in every state `s` the cycle loop reaches, with a
sampler that keeps the range of `uniform_int_distribution`, the cycle duration
`d` is an integer with `4000 ≤ d ≤ 6000`; a poll with elapsed time `e` toggles
and publishes exactly when `e ≥ d` and changes nothing otherwise; so a
publication happens only at a measured elapsed time of at least 4000 ms, and
after any polls below `d` the first poll that has reached `d` publishes. -/
theorem cycle_duration_bound (sample : Int → Int → Nat → Int) (hs : InRange sample)
    (ticksPerMs : Int) (l : TrafficLight) (t0 : Int) (polls : List (Int × Int))
    (s : CycleLoop) (hreach : s = run sample ticksPerMs (init sample l t0) polls)
    (endT restart : Int) :
    (4000 ≤ s.cycle_duration ∧ s.cycle_duration ≤ 6000) ∧
    ((poll sample ticksPerMs s endT restart).light = s.light.transition ↔
      s.cycle_duration ≤ time_elapsed ticksPerMs s endT) ∧
    (poll sample ticksPerMs s endT restart = s ↔
      time_elapsed ticksPerMs s endT < s.cycle_duration) ∧
    ((poll sample ticksPerMs s endT restart).light = s.light.transition →
      4000 ≤ time_elapsed ticksPerMs s endT) ∧
    (∀ waits : List (Int × Int),
      (∀ w ∈ waits, time_elapsed ticksPerMs s w.1 < s.cycle_duration) →
      s.cycle_duration ≤ time_elapsed ticksPerMs s endT →
      run sample ticksPerMs s waits = s ∧
      (run sample ticksPerMs s (waits ++ [(endT, restart)])).light = s.light.transition ∧
      (run sample ticksPerMs s (waits ++ [(endT, restart)])).start = restart) := by
  have hd : 4000 ≤ s.cycle_duration ∧ s.cycle_duration ≤ 6000 := by
    rw [hreach]
    apply run_duration sample hs
    exact hs 4000 6000 0 (by decide)
  have hiff : (poll sample ticksPerMs s endT restart).light = s.light.transition ↔
      s.cycle_duration ≤ time_elapsed ticksPerMs s endT := by
    constructor
    · intro h
      by_contra hlt
      rw [poll_of_not_reached sample ticksPerMs s endT restart (not_le.mp hlt)] at h
      exact transition_ne s.light h.symm
    · intro h
      rw [poll_of_reached sample ticksPerMs s endT restart h]
  refine ⟨hd, hiff, ?_, ?_, ?_⟩
  · constructor
    · intro h
      by_contra hge
      have hle := not_lt.mp hge
      have hl := congrArg CycleLoop.light h
      rw [poll_of_reached sample ticksPerMs s endT restart hle] at hl
      exact transition_ne s.light hl
    · exact poll_of_not_reached sample ticksPerMs s endT restart
  · intro h
    exact le_trans hd.1 (hiff.mp h)
  · intro waits hw hreached
    have hrun := run_of_not_reached sample ticksPerMs s waits hw
    refine ⟨hrun, ?_, ?_⟩
    · rw [run_append, hrun, run, run, poll_of_reached sample ticksPerMs s endT restart hreached]
    · rw [run_append, hrun, run, run, poll_of_reached sample ticksPerMs s endT restart hreached]

theorem cycle_duration_bound_witness :
    InRange sampleMod ∧
    (run sampleMod 1000000 (init sampleMod TrafficLight.new 0)
      [(4010999999, 0), (4011000000, 4011000123)]).cycle_duration = 4048 ∧
    (run sampleMod 1000000 (init sampleMod TrafficLight.new 0)
      [(4010999999, 0), (4011000000, 4011000123)]).light
        = { _currentPhase := green, _queue := [green] } ∧
    (4000 ≤ (run sampleMod 1000000 (init sampleMod TrafficLight.new 0)
        [(4010999999, 0), (4011000000, 4011000123)]).cycle_duration ∧
      (run sampleMod 1000000 (init sampleMod TrafficLight.new 0)
        [(4010999999, 0), (4011000000, 4011000123)]).cycle_duration ≤ 6000) :=
  ⟨sampleMod_inRange, by decide, by decide,
   (cycle_duration_bound sampleMod sampleMod_inRange 1000000 TrafficLight.new 0
     [(4010999999, 0), (4011000000, 4011000123)] _ rfl 0 0).1⟩

end CycleLoop

/-! ## Which locks an operation holds -/

namespace LockTrace

open LockEvent Lock

theorem everBoth_of_both (h : Held) (es : List LockEvent) (hb : (h.mutex && h.mtx) = true) :
    h.everBoth es = true := by
  cases es with
  | nil => simpa [Held.everBoth] using hb
  | cons e es => simp [Held.everBoth, hb]

theorem everBoth_append (h : Held) (a b : List LockEvent) :
    h.everBoth (a ++ b) = (h.everBoth a || (h.applyAll a).everBoth b) := by
  induction a generalizing h with
  | nil =>
    cases hb : (h.mutex && h.mtx) with
    | true => simp [everBoth_of_both h b hb, Held.everBoth, hb, Held.applyAll]
    | false => simp [Held.everBoth, hb, Held.applyAll]
  | cons e a ih =>
    simp [Held.everBoth, Held.applyAll, ih, Bool.or_assoc]

theorem mutexUnderMtx_append (h : Held) (a b : List LockEvent) :
    h.mutexUnderMtx (a ++ b) = (h.mutexUnderMtx a || (h.applyAll a).mutexUnderMtx b) := by
  induction a generalizing h with
  | nil => simp [Held.mutexUnderMtx, Held.applyAll]
  | cons e a ih =>
    simp [Held.mutexUnderMtx, Held.applyAll, ih, Bool.or_assoc]

theorem applyAll_append (h : Held) (a b : List LockEvent) :
    h.applyAll (a ++ b) = (h.applyAll a).applyAll b := by
  induction a generalizing h with
  | nil => rfl
  | cons e a ih => simp [Held.applyAll, ih]

theorem receive_locks (waits : Nat) :
    Held.none.everBoth (receive waits) = false ∧
    Held.none.mutexUnderMtx (receive waits) = false ∧
    Held.none.applyAll (receive waits) = Held.none := by
  induction waits with
  | zero => decide
  | succ w ih =>
    obtain ⟨h1, h2, h3⟩ := ih
    refine ⟨?_, ?_, ?_⟩
    · simpa [receive, Held.everBoth, Held.apply, Held.none] using h1
    · simpa [receive, Held.mutexUnderMtx, Held.apply, Held.none] using h2
    · simpa [receive, Held.applyAll, Held.apply, Held.none] using h3

theorem waitForGreen_locks (ws : List Nat) :
    Held.none.everBoth (waitForGreen ws) = false ∧
    Held.none.mutexUnderMtx (waitForGreen ws) = false ∧
    Held.none.applyAll (waitForGreen ws) = Held.none := by
  induction ws with
  | nil => decide
  | cons w ws ih =>
    obtain ⟨h1, h2, h3⟩ := ih
    obtain ⟨r1, r2, r3⟩ := receive_locks w
    refine ⟨?_, ?_, ?_⟩
    · rw [waitForGreen, everBoth_append, r1, r3, h1]; rfl
    · rw [waitForGreen, mutexUnderMtx_append, r2, r3, h2]; rfl
    · rw [waitForGreen, applyAll_append, r3, h3]

/-- C8, as the program has it. `send`, `receive`, `waitForGreen` and
`getCurrentPhase` never hold `_mutex` and `_mtx` at the same time; a transition
of the cycle loop takes `_mutex`, then runs `send`, which takes and releases
`_mtx`, and releases `_mutex` last; no operation takes `_mutex` while it holds
`_mtx`, and every operation ends holding no lock. -/
theorem locks_nest_only_in_transition (waits : Nat) (ws : List Nat) :
    (Held.none.everBoth send = false ∧
     Held.none.everBoth (receive waits) = false ∧
     Held.none.everBoth (waitForGreen ws) = false ∧
     Held.none.everBoth getCurrentPhase = false) ∧
    transition = [acquire _mutex, acquire _mtx, release _mtx, release _mutex] ∧
    (Held.none.mutexUnderMtx send = false ∧
     Held.none.mutexUnderMtx (receive waits) = false ∧
     Held.none.mutexUnderMtx (waitForGreen ws) = false ∧
     Held.none.mutexUnderMtx getCurrentPhase = false ∧
     Held.none.mutexUnderMtx transition = false) ∧
    (Held.none.applyAll send = Held.none ∧
     Held.none.applyAll (receive waits) = Held.none ∧
     Held.none.applyAll (waitForGreen ws) = Held.none ∧
     Held.none.applyAll getCurrentPhase = Held.none ∧
     Held.none.applyAll transition = Held.none) := by
  obtain ⟨r1, r2, r3⟩ := receive_locks waits
  obtain ⟨w1, w2, w3⟩ := waitForGreen_locks ws
  exact ⟨⟨by decide, r1, w1, by decide⟩, rfl,
    ⟨by decide, r2, w2, by decide, by decide⟩,
    ⟨by decide, r3, w3, by decide, by decide⟩⟩

/-- C8, as stated, fails: a transition of the cycle loop holds `_mutex` and
`_mtx` together, namely from the `lock_guard` of `send` to the return of `send`;
after its first two lock events both are held. -/
theorem transition_holds_both_locks :
    Held.none.everBoth transition = true ∧
    Held.none.applyAll (transition.take 2) = { mutex := true, mtx := true } := by
  decide

end LockTrace

/-! ## Reads of the phase against publications -/

namespace World

theorem Inv.init : Inv World.init := by
  refine ⟨?_, ?_, ?_, ?_, ?_⟩ <;> simp [World.init, TrafficLight.new]

theorem toggle_parity (n : Nat) (p : TrafficLightPhase)
    (h : p = if n % 2 = 1 then green else red) :
    TrafficLight.toggle p = if (n + 1) % 2 = 1 then green else red := by
  rcases Nat.mod_two_eq_zero_or_one n with h0 | h1
  · have h' : (n + 1) % 2 = 1 := by omega
    simp [h0] at h
    simp [h', h, TrafficLight.toggle]
  · have h' : (n + 1) % 2 = 0 := by omega
    simp [h1] at h
    simp [h', h, TrafficLight.toggle]

theorem Inv.stepCycle (w : World) (h : Inv w) : Inv w.stepCycle := by
  obtain ⟨h1, h2, h3, h4, h5⟩ := h
  unfold World.stepCycle
  cases hpc : w.cyclePc with
  | poll =>
    cases ho : w.mutexOwner with
    | none =>
      simp only [hpc, ho] at h1 h2 h3
      refine ⟨by simp, ?_, by simpa using h3, h4, h5⟩
      simp only [Option.some.injEq, reduceCtorEq, false_iff, ne_eq, not_not] at h2 ⊢
      exact h2
    | some t => exact ⟨by simpa [hpc, ho] using h1, h2, by simpa [hpc] using h3, h4, h5⟩
  | locked =>
    simp only [hpc] at h1 h3
    refine ⟨by simpa using h1, h2, ?_, ?_, h5⟩
    · simp at h3 ⊢
      omega
    · exact toggle_parity w.flips _ h4
  | flipped =>
    simp only [hpc] at h1 h3
    have hown : w.mutexOwner = some Thread.cycle := h1.mpr (by simp)
    cases ho : w.mtxOwner with
    | none =>
      refine ⟨by simpa using hown, h2, by simpa using h3, h4, h5⟩
    | some t =>
      exact ⟨by simpa [hpc] using hown, h2, by simpa [hpc] using h3, h4, h5⟩
  | inSend =>
    simp only [hpc] at h1 h3
    have hown : w.mutexOwner = some Thread.cycle := h1.mpr (by simp)
    refine ⟨by simpa using hown, h2, ?_, h4, h5⟩
    simp at h3 ⊢
    omega
  | appended =>
    simp only [hpc] at h1 h3
    have hown : w.mutexOwner = some Thread.cycle := h1.mpr (by simp)
    exact ⟨by simpa using hown, h2, by simpa using h3, h4, h5⟩
  | sent =>
    simp only [hpc] at h1 h3
    have hown : w.mutexOwner = some Thread.cycle := h1.mpr (by simp)
    refine ⟨by simp, ?_, by simpa using h3, h4, h5⟩
    rw [hown] at h2
    simp only [Option.some.injEq, reduceCtorEq, false_iff, ne_eq, not_not] at h2 ⊢
    exact h2

theorem Inv.stepReader (w : World) (h : Inv w) : Inv w.stepReader := by
  obtain ⟨h1, h2, h3, h4, h5⟩ := h
  unfold World.stepReader
  cases hpc : w.readerPc with
  | idle =>
    cases ho : w.mutexOwner with
    | none =>
      simp only [hpc, ho] at h1 h2
      refine ⟨?_, by simp, h3, h4, h5⟩
      simp only [Option.some.injEq, reduceCtorEq, false_iff, ne_eq, not_not] at h1 ⊢
      exact h1
    | some t => exact ⟨h1, by simpa [hpc, ho] using h2, h3, h4, h5⟩
  | locked =>
    simp only [hpc] at h2
    have hown : w.mutexOwner = some Thread.reader := h2.mpr (by simp)
    have hc : w.cyclePc = CyclePc.poll := by
      by_contra hne
      have := h1.mpr hne
      rw [hown] at this
      simp at this
    refine ⟨h1, by simpa using hown, h3, h4, ?_⟩
    intro o ho
    simp only [List.mem_append, List.mem_singleton] at ho
    rcases ho with ho | ho
    · exact h5 o ho
    · subst ho
      simp only [hc, reduceCtorEq, or_self, if_false, Nat.add_zero] at h3
      exact ⟨h3, h4⟩
  | done =>
    simp only [hpc] at h2
    have hown : w.mutexOwner = some Thread.reader := h2.mpr (by simp)
    refine ⟨?_, by simp, h3, h4, h5⟩
    rw [hown] at h1
    simp only [Option.some.injEq, reduceCtorEq, false_iff, ne_eq, not_not] at h1 ⊢
    exact h1

theorem Inv.run (w : World) (sched : List Thread) (h : Inv w) : Inv (w.run sched) := by
  induction sched generalizing w with
  | nil => exact h
  | cons t ts ih =>
    apply ih
    cases t with
    | cycle => exact Inv.stepCycle w h
    | reader => exact Inv.stepReader w h

/-- C9, as the program has it. In every interleaving of one cycle loop with
calls of `getCurrentPhase`, at the moment of a read the number of committed
toggles equals the number of items published, and the value read is the phase
after that many toggles from `red`: the cycle loop keeps `_mutex` from before
the toggle until `send` has returned. -/
theorem read_sees_published_phase (sched : List Thread) (o : Observation)
    (h : o ∈ (World.init.run sched).reads) :
    o.flips = o.published ∧ o.phase = (if o.flips % 2 = 1 then green else red) :=
  (Inv.run World.init sched Inv.init).2.2.2.2 o h

theorem read_sees_published_phase_witness :
    (World.init.run [Thread.cycle, Thread.cycle, Thread.reader, Thread.cycle, Thread.cycle,
        Thread.cycle, Thread.cycle, Thread.reader, Thread.reader]).reads
      = [{ phase := green, flips := 1, published := 1 }] ∧
    ((1 : Nat) = 1 ∧ green = (if 1 % 2 = 1 then green else red)) :=
  ⟨by decide,
   read_sees_published_phase
     [Thread.cycle, Thread.cycle, Thread.reader, Thread.cycle, Thread.cycle,
       Thread.cycle, Thread.cycle, Thread.reader, Thread.reader]
     { phase := green, flips := 1, published := 1 } (by decide)⟩

/-- C9, as stated, fails: no interleaving of the cycle loop with calls of
`getCurrentPhase` has a read at which more toggles are committed than items are
published. -/
theorem no_read_before_publication :
    ¬ ∃ sched : List Thread, ∃ o ∈ (World.init.run sched).reads, o.published < o.flips := by
  rintro ⟨sched, o, ho, hlt⟩
  have h := (Inv.run World.init sched Inv.init).2.2.2.2 o ho
  omega

end World

end TrafficSim
